import Mathlib

/-!
Verification development for the binary-CKKS research implementation.

The C++ sources `simple_binary_ckks.cpp` and `binary_ckks.cpp` are shallowly
embedded below.  C++ `long` values are modelled as `Int`; the C++ `%` operator
on `long` (truncated-division remainder, so `-1 % 2 == -1`) is modelled by
`Int.tmod`; `std::vector<long>` is modelled by `List Int`.  Randomness drawn
from the samplers (`mt19937`-driven shuffles, normal draws, coin flips) is
modelled by passing the drawn values explicitly as arguments, quantified over
all values the samplers can produce.
-/

/-- The result of `coeffs.resize(n, 0)` applied after copying `cs`:
truncate to length `n` if `cs` is longer, otherwise pad with zeros.
This is what both the `SimpleBinaryPoly(const vector<long>&, long)` and
`BinaryPoly(const vector<long>&, long)` constructors do to their input. -/
def resizeTo (cs : List Int) (n : Nat) : List Int :=
  cs.take n ++ List.replicate (n - cs.length) 0

/-- Body of `SimpleBinaryPoly::operator+` (simple_binary_ckks.cpp:20-27):
`result.coeffs[i] = (coeffs[i] + other.coeffs[i]) % 2` for every `i < n`.
(The `assert(n == other.n)` has passed whenever this is reached; both operand
lists have length `n` at every call site.) -/
def polyAdd (n : Nat) (a b : List Int) : List Int :=
  (List.range n).map fun i => (a.getD i 0 + b.getD i 0).tmod 2

/-- One write of the `operator*` inner loop:
`result.coeffs[pos] = (result.coeffs[pos] + 1) % 2`. -/
def mulFlip (acc : List Int) (pos : Nat) : List Int :=
  acc.set pos ((acc.getD pos 0 + 1).tmod 2)

/-- Body of `SimpleBinaryPoly::operator*` (simple_binary_ckks.cpp:29-48):
two nested loops over `i, j < n`; whenever `coeffs[i]` and `other.coeffs[j]`
are both truthy (nonzero), the output position `(i + j) % n` is flipped.
The two branches of the `if (i + j >= n)` in the source are identical, so the
reduction rule `x^n = 1` is applied uniformly. -/
def polyMul (n : Nat) (a b : List Int) : List Int :=
  (List.range n).foldl
    (fun acc i =>
      (List.range n).foldl
        (fun acc2 j =>
          if a.getD i 0 ≠ 0 ∧ b.getD j 0 ≠ 0 then mulFlip acc2 ((i + j) % n) else acc2)
        acc)
    (List.replicate n 0)

/-- `class SimpleBinaryPoly`: a coefficient vector together with the ring
dimension `n` stored in the object. -/
structure SimpleBinaryPoly where
  n : Nat
  coeffs : List Int
  deriving DecidableEq, Repr

/-- Constructor `SimpleBinaryPoly(const vector<long>& coefficients, long ring_dim)`:
copies `coefficients` and then calls `coeffs.resize(n, 0)`. No reduction mod 2
is applied to the entries. -/
def SimpleBinaryPoly.ofCoeffs (coefficients : List Int) (ring_dim : Nat) : SimpleBinaryPoly :=
  ⟨ring_dim, resizeTo coefficients ring_dim⟩

/-- `SimpleBinaryPoly::operator+`: `assert(n == other.n)` aborts on dimension
mismatch (modelled as `none`); otherwise the coefficientwise sum mod 2. -/
def SimpleBinaryPoly.add (a b : SimpleBinaryPoly) : Option SimpleBinaryPoly :=
  if a.n = b.n then some ⟨a.n, polyAdd a.n a.coeffs b.coeffs⟩ else none

/-- `SimpleBinaryPoly::operator*`: `assert(n == other.n)` aborts on dimension
mismatch (modelled as `none`); otherwise the cyclic-convolution loop. -/
def SimpleBinaryPoly.mul (a b : SimpleBinaryPoly) : Option SimpleBinaryPoly :=
  if a.n = b.n then some ⟨a.n, polyMul a.n a.coeffs b.coeffs⟩ else none

/-- `SimpleBinaryPoly::getCoeff(long i)` (simple_binary_ckks.cpp:60-62):
`return (i >= 0 && i < n) ? coeffs[i] : 0;`. The index is a C++ `long` and may
be negative, hence `Int`. -/
def SimpleBinaryPoly.getCoeff (a : SimpleBinaryPoly) (i : Int) : Int :=
  if 0 ≤ i ∧ i < (a.n : Int) then a.coeffs.getD i.toNat 0 else 0

/-- `SimpleBinaryPoly::setCoeff(long i, long val)` (simple_binary_ckks.cpp:64-68):
writes `val % 2` at position `i` when `0 <= i < n`, otherwise does nothing. -/
def SimpleBinaryPoly.setCoeff (a : SimpleBinaryPoly) (i : Int) (val : Int) : SimpleBinaryPoly :=
  if 0 ≤ i ∧ i < (a.n : Int) then ⟨a.n, a.coeffs.set i.toNat (val.tmod 2)⟩ else a

namespace SimpleHWT

/-- `SimpleHWT::sampleHWT(long n, long h)` (simple_binary_ckks.cpp:149-161):
start from the all-zero vector of length `n`, shuffle the index list
`0, …, n-1` (the shuffled list is the explicit `positions` argument here), and
set `result[positions[i]] = 1` for `i < h && i < n`.
`HammingWeightSampler::sampleHWT` in binary_ckks.cpp:143-155 is identical. -/
def sampleHWT (n h : Nat) (positions : List Nat) : List Int :=
  (List.range (min h n)).foldl
    (fun result i => result.set (positions.getD i 0) 1)
    (List.replicate n 0)

end SimpleHWT

/-- `class SimpleBinaryCKKSKeys`: the bundle produced by `keyGen`. -/
structure SimpleBinaryCKKSKeys where
  s : List Int
  pk_a : List Int
  pk_b : List Int
  evk_a : List Int
  evk_b : List Int
  deriving DecidableEq, Repr

/-- `class SimpleBinaryCKKSCiphertext`: two ring elements plus the scalar
noise estimate (a C++ `double`, modelled as `ℚ`; the engine only ever adds and
multiplies small values of it). -/
structure SimpleBinaryCKKSCiphertext where
  c0 : List Int
  c1 : List Int
  noise_estimate : ℚ
  deriving DecidableEq, Repr

namespace SimpleBinaryCKKS

/-- Engine constructor parameter derivation (simple_binary_ckks.cpp:198-209):
`h = security / 2` (integer division). No validation is performed. -/
def hParam (security : Nat) : Nat := security / 2

/-- Engine constructor parameter (simple_binary_ckks.cpp:203): `sigma = 3.2`,
unconditionally. -/
def sigmaParam : ℚ := 3.2

/-- Reduction applied to every discrete-Gaussian sample before use as a ring
coefficient in `SimpleBinaryCKKS::keyGen`/`encrypt`:
`coeff = abs(coeff) % 2` (simple_binary_ckks.cpp:230,241,281,282). -/
def reduceErrCoeff (c : Int) : Int := |c|.tmod 2

/-- `SimpleBinaryCKKS::keyGen` (simple_binary_ckks.cpp:217-248). The sampler
draws are explicit arguments: `s_rand` is the shuffled position list used by
`sampleHWT`, `a_rand`/`a0_rand` the uniform-binary draws, `e_rand`/`e0_rand`
the raw (unreduced) discrete-Gaussian draws. -/
def keyGen (n h : Nat) (s_rand : List Nat) (a_rand e_rand a0_rand e0_rand : List Int) :
    SimpleBinaryCKKSKeys :=
  let s := resizeTo (SimpleHWT.sampleHWT n h s_rand) n
  let pk_a := resizeTo a_rand n
  let e := resizeTo (e_rand.map reduceErrCoeff) n
  let pk_b := polyAdd n (polyMul n pk_a s) e
  let evk_a := resizeTo a0_rand n
  let e0 := resizeTo (e0_rand.map reduceErrCoeff) n
  let evk_b := polyAdd n (polyAdd n (polyMul n evk_a s) e0) (polyMul n s s)
  ⟨s, pk_a, pk_b, evk_a, evk_b⟩

/-- Guarded coefficient write used by `encode` (it calls
`result.setCoeff(i, data[i] % 2)` with a `size_t` loop index `i < n`). -/
def listSetCoeff (n : Nat) (cs : List Int) (i : Nat) (val : Int) : List Int :=
  if i < n then cs.set i (val.tmod 2) else cs

/-- `SimpleBinaryCKKS::encode` (simple_binary_ckks.cpp:250-259): start from the
zero polynomial and `setCoeff(i, data[i] % 2)` for `i < data.size() && i < n`. -/
def encode (n : Nat) (data : List Int) : List Int :=
  (List.range (min data.length n)).foldl
    (fun result i => listSetCoeff n result i ((data.getD i 0).tmod 2))
    (List.replicate n 0)

/-- `SimpleBinaryCKKS::decode` (simple_binary_ckks.cpp:261-270): a zero vector
of length `expected_size` whose entries `i < min expected_size n` are
overwritten with `poly.getCoeff(i)` (in range, hence `coeffs[i]`). -/
def decode (n : Nat) (cs : List Int) (expected_size : Nat) : List Int :=
  (List.range expected_size).map fun i => if i < n then cs.getD i 0 else 0

/-- `SimpleBinaryCKKS::encrypt` (simple_binary_ckks.cpp:272-291): sample `v`
uniform binary, `e0`, `e1` discrete Gaussian reduced by `abs • % 2`, and set
`c0 = v*pk_b + plaintext + e0`, `c1 = v*pk_a + e1`, noise estimate `sigma`. -/
def encrypt (n : Nat) (sigma : ℚ) (plaintext : List Int) (keys : SimpleBinaryCKKSKeys)
    (v_rand e0_rand e1_rand : List Int) : SimpleBinaryCKKSCiphertext :=
  let v := resizeTo v_rand n
  let e0 := resizeTo (e0_rand.map reduceErrCoeff) n
  let e1 := resizeTo (e1_rand.map reduceErrCoeff) n
  ⟨polyAdd n (polyAdd n (polyMul n v keys.pk_b) plaintext) e0,
   polyAdd n (polyMul n v keys.pk_a) e1,
   sigma⟩

/-- `SimpleBinaryCKKS::decrypt` (simple_binary_ckks.cpp:293-297):
`return ciphertext.c0 + ciphertext.c1 * keys.s;`. -/
def decrypt (n : Nat) (ct : SimpleBinaryCKKSCiphertext) (keys : SimpleBinaryCKKSKeys) :
    List Int :=
  polyAdd n ct.c0 (polyMul n ct.c1 keys.s)

/-- `SimpleBinaryCKKS::add` (simple_binary_ckks.cpp:299-306): componentwise
ring addition, noise estimates added. -/
def add (n : Nat) (ct1 ct2 : SimpleBinaryCKKSCiphertext) : SimpleBinaryCKKSCiphertext :=
  ⟨polyAdd n ct1.c0 ct2.c0, polyAdd n ct1.c1 ct2.c1,
   ct1.noise_estimate + ct2.noise_estimate⟩

/-- `SimpleBinaryCKKS::multiply` (simple_binary_ckks.cpp:308-323): tensor
expansion followed by key switching with the evaluation key; the noise
estimate becomes `noise1 * noise2 + sigma`. -/
def multiply (n : Nat) (sigma : ℚ) (ct1 ct2 : SimpleBinaryCKKSCiphertext)
    (keys : SimpleBinaryCKKSKeys) : SimpleBinaryCKKSCiphertext :=
  let d0 := polyMul n ct1.c0 ct2.c0
  let d1 := polyAdd n (polyMul n ct1.c0 ct2.c1) (polyMul n ct1.c1 ct2.c0)
  let d2 := polyMul n ct1.c1 ct2.c1
  ⟨polyAdd n d0 (polyMul n d2 keys.evk_b),
   polyAdd n d1 (polyMul n d2 keys.evk_a),
   ct1.noise_estimate * ct2.noise_estimate + sigma⟩

end SimpleBinaryCKKS

/-- `class BinaryPoly` (binary_ckks.h / binary_ckks.cpp): coefficient vector
plus a stored `degree_bound`. -/
structure BinaryPoly where
  degree_bound : Nat
  coeffs : List Int
  deriving DecidableEq, Repr

/-- Constructor `BinaryPoly(const vector<long>&, long)`: copy then
`coeffs.resize(deg_bound, 0)`. -/
def BinaryPoly.ofCoeffs (coefficients : List Int) (deg_bound : Nat) : BinaryPoly :=
  ⟨deg_bound, resizeTo coefficients deg_bound⟩

/-- `BinaryPoly::operator+` (binary_ckks.cpp:14-22): result dimension is
`max(degree_bound, other.degree_bound)`; out-of-range operand coefficients are
read as 0 (`i < coeffs.size() ? coeffs[i] : 0`). It never fails. -/
def BinaryPoly.add (a b : BinaryPoly) : BinaryPoly :=
  ⟨max a.degree_bound b.degree_bound,
   (List.range (max a.degree_bound b.degree_bound)).map fun i =>
     (a.coeffs.getD i 0 + b.coeffs.getD i 0).tmod 2⟩

/-- `BinaryPoly::operator*` (binary_ckks.cpp:24-43): result dimension is the
left operand's `degree_bound`; loops run over the actual coefficient-vector
lengths and positions are reduced mod `degree_bound`. -/
def BinaryPoly.mul (a b : BinaryPoly) : BinaryPoly :=
  ⟨a.degree_bound,
   (List.range a.coeffs.length).foldl
     (fun acc i =>
       (List.range b.coeffs.length).foldl
         (fun acc2 j =>
           if a.coeffs.getD i 0 ≠ 0 ∧ b.coeffs.getD j 0 ≠ 0 then
             mulFlip acc2 ((i + j) % a.degree_bound)
           else acc2)
         acc)
     (List.replicate a.degree_bound 0)⟩

namespace BinaryCKKS

/-- Reduction applied to discrete-Gaussian samples in `BinaryCKKS::keyGen`
(binary_ckks.cpp:323,335) and `BinaryCKKS::encrypt` (binary_ckks.cpp:404-405):
`coeff = coeff % 2` with no absolute value.  C++ `%` truncates toward zero, so
a negative sample yields a negative remainder. -/
def reduceErrCoeff (c : Int) : Int := c.tmod 2

/-- The error-vector construction of `BinaryCKKS::encrypt`
(binary_ckks.cpp:402-406): reduce the raw Gaussian vector entrywise and build
a `BinaryPoly` of dimension `n` from it. -/
def encryptErrPoly (n : Nat) (e_rand : List Int) : BinaryPoly :=
  BinaryPoly.ofCoeffs (e_rand.map reduceErrCoeff) n

end BinaryCKKS

/-! ### Basic facts about `Int.tmod` (the C++ `%`) and list access -/

/-- A value is a bit when it is 0 or 1. -/
def isBit (x : Int) : Prop := x = 0 ∨ x = 1

/-- All entries of a coefficient list are bits. -/
def bitVec (l : List Int) : Prop := ∀ x ∈ l, isBit x

theorem isBit_def (x : Int) : isBit x ↔ (x = 0 ∨ x = 1) := Iff.rfl

instance isBit_decidable (x : Int) : Decidable (isBit x) :=
  decidable_of_iff _ (isBit_def x).symm

instance bitVec_decidable (l : List Int) : Decidable (bitVec l) :=
  List.decidableBAll _ l

theorem tmod_two_eq_emod_of_nonneg (x : Int) (hx : 0 ≤ x) : x.tmod 2 = x % 2 :=
  Int.tmod_eq_emod hx (by norm_num)

theorem isBit_tmod_two_of_nonneg (x : Int) (hx : 0 ≤ x) : isBit (x.tmod 2) := by
  rw [tmod_two_eq_emod_of_nonneg x hx, isBit_def]
  omega

theorem intCast_tmod_two (x : Int) : ((x.tmod 2 : Int) : ZMod 2) = (x : ZMod 2) := by
  have h : (x.tmod 2 : Int) = x - 2 * x.tdiv 2 := by
    have := Int.tdiv_add_tmod x 2
    omega
  rw [h]
  push_cast
  rw [show (2 : ZMod 2) = 0 by decide]
  ring

theorem intCast_emod_two (x : Int) : ((x % 2 : Int) : ZMod 2) = (x : ZMod 2) := by
  rw [(ZMod.intCast_eq_intCast_iff _ _ _)]
  exact Int.emod_emod_of_dvd x (by norm_num)

theorem getD_lt {l : List Int} {i : Nat} (h : i < l.length) : l.getD i 0 = l[i] :=
  List.getD_eq_getElem l 0 h

theorem getD_le {l : List Int} {i : Nat} (h : l.length ≤ i) : l.getD i 0 = 0 := by
  simp [List.getD_eq_getElem?_getD, List.getElem?_eq_none h]

theorem getD_set_self {l : List Int} {i : Nat} (v : Int) (h : i < l.length) :
    (l.set i v).getD i 0 = v := by
  rw [List.getD_eq_getElem _ 0 (by simpa using h)]
  simp

theorem getD_set_ne {l : List Int} {i j : Nat} (v : Int) (h : i ≠ j) :
    (l.set i v).getD j 0 = l.getD j 0 := by
  simp [List.getD_eq_getElem?_getD, List.getElem?_set_ne h]

theorem bitVec_getD {l : List Int} (hl : bitVec l) (i : Nat) : isBit (l.getD i 0) := by
  rcases Nat.lt_or_ge i l.length with h | h
  · exact hl _ (by rw [getD_lt h]; exact List.getElem_mem h)
  · rw [getD_le h]; exact Or.inl rfl

theorem bitVec_nonneg {l : List Int} (hl : bitVec l) (i : Nat) : 0 ≤ l.getD i 0 := by
  rcases bitVec_getD hl i with h | h <;> omega

theorem bitVec_replicate (n : Nat) : bitVec (List.replicate n 0) := by
  intro x hx
  rw [List.eq_of_mem_replicate hx]
  exact Or.inl rfl

theorem getD_replicate {n k : Nat} (h : k < n) : (List.replicate n (0 : Int)).getD k 0 = 0 := by
  rw [getD_lt (by simpa using h)]
  simp

theorem bitVec_set {l : List Int} {v : Int} (hl : bitVec l) (hv : isBit v) (i : Nat) :
    bitVec (l.set i v) := by
  intro x hx
  rcases List.mem_or_eq_of_mem_set hx with h | h
  · exact hl _ h
  · rw [h]; exact hv

/-! ### `resizeTo` -/

theorem resizeTo_length (cs : List Int) (n : Nat) : (resizeTo cs n).length = n := by
  simp [resizeTo]
  omega

theorem bitVec_resizeTo {cs : List Int} (h : bitVec cs) (n : Nat) : bitVec (resizeTo cs n) := by
  intro x hx
  rcases List.mem_append.1 hx with h1 | h1
  · exact h _ (List.mem_of_mem_take h1)
  · rw [List.eq_of_mem_replicate h1]; exact Or.inl rfl

theorem resizeTo_eq_replicate {cs : List Int} (h : ∀ x ∈ cs, x = 0) (n : Nat) :
    resizeTo cs n = List.replicate n 0 := by
  have : cs.take n = List.replicate (min n cs.length) 0 := by
    rw [show min n cs.length = (cs.take n).length by simp]
    apply List.eq_replicate_of_mem
    intro x hx
    exact h _ (List.mem_of_mem_take hx)
  rw [resizeTo, this, ← List.replicate_add]
  congr 1
  omega

theorem resizeTo_getD {cs : List Int} {n k : Nat} (h : k < n) :
    (resizeTo cs n).getD k 0 = if k < cs.length then cs.getD k 0 else 0 := by
  have hlen : (resizeTo cs n).length = n := resizeTo_length cs n
  rcases Nat.lt_or_ge k cs.length with hk | hk
  · rw [if_pos hk, getD_lt (by omega)]
    simp only [resizeTo]
    rw [List.getElem_append_left (by simp; omega)]
    rw [List.getElem_take, getD_lt hk]
  · rw [if_neg (by omega), getD_lt (by omega)]
    simp only [resizeTo]
    rw [List.getElem_append_right (by simp; omega)]
    simp

/-! ### Characterizing the `operator*` double loop -/

/-- The iteration order of the two nested loops of `operator*`: all pairs
`(i, j)` with `i, j < n`, outer index first. -/
def pairList (n : Nat) : List (Nat × Nat) :=
  (List.range n).flatMap fun i => (List.range n).map fun j => (i, j)

/-- The body of the inner loop of `operator*`, applied to one index pair. -/
def mulStep (n : Nat) (a b : List Int) (acc : List Int) (p : Nat × Nat) : List Int :=
  if a.getD p.1 0 ≠ 0 ∧ b.getD p.2 0 ≠ 0 then mulFlip acc ((p.1 + p.2) % n) else acc

/-- Whether the pair `(i, j)` contributes to output coefficient `k`:
both operand coefficients truthy and `(i + j) % n = k`. -/
def mulQual (n : Nat) (a b : List Int) (k : Nat) (p : Nat × Nat) : Bool :=
  decide (a.getD p.1 0 ≠ 0 ∧ b.getD p.2 0 ≠ 0) && decide ((p.1 + p.2) % n = k)

theorem foldl_flatMap {α β γ : Type} (l : List α) (f : α → List β) (g : γ → β → γ) (init : γ) :
    (l.flatMap f).foldl g init = l.foldl (fun acc x => (f x).foldl g acc) init := by
  induction l generalizing init with
  | nil => rfl
  | cons x xs ih => simp [List.flatMap_cons, List.foldl_append, ih]

theorem polyMul_eq_pairList (n : Nat) (a b : List Int) :
    polyMul n a b = (pairList n).foldl (mulStep n a b) (List.replicate n 0) := by
  rw [pairList, foldl_flatMap]
  unfold polyMul
  congr 1
  funext acc i
  rw [List.foldl_map]
  rfl

theorem mulFlip_length (acc : List Int) (pos : Nat) : (mulFlip acc pos).length = acc.length := by
  simp [mulFlip]

theorem mulStep_length (n : Nat) (a b acc : List Int) (p : Nat × Nat) :
    (mulStep n a b acc p).length = acc.length := by
  unfold mulStep
  split
  · exact mulFlip_length acc _
  · rfl

theorem bitVec_mulFlip {acc : List Int} (h : bitVec acc) (pos : Nat) : bitVec (mulFlip acc pos) := by
  apply bitVec_set h
  apply isBit_tmod_two_of_nonneg
  have := bitVec_nonneg h pos
  omega

theorem bitVec_mulStep {n : Nat} {a b acc : List Int} (h : bitVec acc) (p : Nat × Nat) :
    bitVec (mulStep n a b acc p) := by
  unfold mulStep
  split
  · exact bitVec_mulFlip h _
  · exact h

theorem foldl_mulStep_length (n : Nat) (a b : List Int) (ps : List (Nat × Nat)) (acc : List Int) :
    (ps.foldl (mulStep n a b) acc).length = acc.length := by
  induction ps generalizing acc with
  | nil => rfl
  | cons p ps ih => rw [List.foldl_cons, ih, mulStep_length]

theorem foldl_mulStep_bitVec (n : Nat) (a b : List Int) (ps : List (Nat × Nat)) {acc : List Int}
    (h : bitVec acc) : bitVec (ps.foldl (mulStep n a b) acc) := by
  induction ps generalizing acc with
  | nil => exact h
  | cons p ps ih => exact ih (bitVec_mulStep h p)

theorem foldl_mulStep_getD (n : Nat) (a b : List Int) (ps : List (Nat × Nat)) :
    ∀ (acc : List Int), acc.length = n → bitVec acc → ∀ k, k < n →
      (ps.foldl (mulStep n a b) acc).getD k 0
        = (acc.getD k 0 + (ps.countP (mulQual n a b k) : Int)) % 2 := by
  induction ps with
  | nil =>
    intro acc _ hbit k _
    rw [List.foldl_nil, List.countP_nil]
    rcases bitVec_getD hbit k with h | h <;> rw [h] <;> decide
  | cons p ps ih =>
    intro acc hlen hbit k hk
    rw [List.foldl_cons,
      ih (mulStep n a b acc p) (by rw [mulStep_length, hlen]) (bitVec_mulStep hbit p) k hk,
      List.countP_cons]
    by_cases hc : a.getD p.1 0 ≠ 0 ∧ b.getD p.2 0 ≠ 0
    · have hpos : (p.1 + p.2) % n < n := Nat.mod_lt _ (by omega)
      by_cases hpk : (p.1 + p.2) % n = k
      · have hq : mulQual n a b k p = true := by
          unfold mulQual
          rw [decide_eq_true hc, decide_eq_true hpk]
          rfl
        rw [hq]
        have hstep : (mulStep n a b acc p).getD k 0 = (acc.getD k 0 + 1).tmod 2 := by
          rw [mulStep, if_pos hc, mulFlip, hpk, getD_set_self _ (by omega)]
        rw [hstep, tmod_two_eq_emod_of_nonneg _ (by have := bitVec_nonneg hbit k; omega),
          Int.emod_add_emod, if_pos rfl]
        push_cast
        congr 1
        ring
      · have hq : mulQual n a b k p = false := by
          unfold mulQual
          rw [decide_eq_false hpk, Bool.and_false]
        rw [hq]
        have hstep : (mulStep n a b acc p).getD k 0 = acc.getD k 0 := by
          rw [mulStep, if_pos hc, mulFlip, getD_set_ne _ hpk]
        rw [hstep]
        norm_num
    · have hq : mulQual n a b k p = false := by
        simp only [mulQual, decide_eq_false hc, Bool.false_and]
      have hstep : mulStep n a b acc p = acc := by
        rw [mulStep, if_neg hc]
      rw [hq, hstep]
      norm_num

theorem polyMul_length (n : Nat) (a b : List Int) : (polyMul n a b).length = n := by
  rw [polyMul_eq_pairList, foldl_mulStep_length]
  simp

theorem bitVec_polyMul (n : Nat) (a b : List Int) : bitVec (polyMul n a b) := by
  rw [polyMul_eq_pairList]
  exact foldl_mulStep_bitVec n a b _ (bitVec_replicate n)

theorem polyMul_getD (n : Nat) (a b : List Int) {k : Nat} (hk : k < n) :
    (polyMul n a b).getD k 0 = (((pairList n).countP (mulQual n a b k) : Nat) : Int) % 2 := by
  rw [polyMul_eq_pairList,
    foldl_mulStep_getD n a b _ _ (by simp) (bitVec_replicate n) k hk,
    getD_replicate hk]
  norm_num

/-! ### `polyAdd` basics -/

theorem polyAdd_length (n : Nat) (a b : List Int) : (polyAdd n a b).length = n := by
  simp [polyAdd]

theorem polyAdd_getD (n : Nat) (a b : List Int) {k : Nat} (hk : k < n) :
    (polyAdd n a b).getD k 0 = (a.getD k 0 + b.getD k 0).tmod 2 := by
  rw [getD_lt (by rw [polyAdd_length]; exact hk)]
  simp [polyAdd]

theorem bitVec_polyAdd {a b : List Int} (n : Nat) (ha : bitVec a) (hb : bitVec b) :
    bitVec (polyAdd n a b) := by
  intro x hx
  rw [polyAdd, List.mem_map] at hx
  obtain ⟨i, _, rfl⟩ := hx
  apply isBit_tmod_two_of_nonneg
  have := bitVec_nonneg ha i
  have := bitVec_nonneg hb i
  omega

/-! ### The algebra bridge: coefficient lists in the group algebra of `ZMod n`

Multiplication in `AddMonoidAlgebra (ZMod 2) (ZMod n)` is exactly cyclic
convolution with index arithmetic mod `n`, which is the reduction
`x^n ≡ 1` that `operator*` implements (`-1 = 1` in `GF(2)`). -/

/-- View a coefficient list of dimension `n` inside the group algebra. -/
noncomputable def ringMap (n : Nat) (cs : List Int) : AddMonoidAlgebra (ZMod 2) (ZMod n) :=
  ∑ i ∈ Finset.range n, AddMonoidAlgebra.single ((i : ZMod n)) ((cs.getD i 0 : Int) : ZMod 2)

theorem addSelf_eq_zero (n : Nat) (x : AddMonoidAlgebra (ZMod 2) (ZMod n)) : x + x = 0 := by
  have h : x + x = (2 : ZMod 2) • x := by rw [two_smul]
  rw [h, show (2 : ZMod 2) = 0 by decide, zero_smul]

theorem ringMap_replicate_zero (n : Nat) : ringMap n (List.replicate n 0) = 0 := by
  unfold ringMap
  apply Finset.sum_eq_zero
  intro i hi
  rw [getD_replicate (Finset.mem_range.1 hi)]
  exact AddMonoidAlgebra.single_zero _

theorem natCast_zmod_inj {n i k : Nat} (hi : i < n) (hk : k < n)
    (h : (i : ZMod n) = (k : ZMod n)) : i = k := by
  haveI : NeZero n := ⟨by omega⟩
  have := congrArg ZMod.val h
  rwa [ZMod.val_cast_of_lt hi, ZMod.val_cast_of_lt hk] at this

theorem ringMap_apply (n : Nat) (cs : List Int) {k : Nat} (hk : k < n) :
    (ringMap n cs) ((k : ZMod n)) = ((cs.getD k 0 : Int) : ZMod 2) := by
  unfold ringMap
  rw [Finsupp.finset_sum_apply]
  rw [show (∑ i ∈ Finset.range n,
        (AddMonoidAlgebra.single ((i : ZMod n)) ((cs.getD i 0 : Int) : ZMod 2)) ((k : ZMod n)))
      = ∑ i ∈ Finset.range n,
        if i = k then ((cs.getD i 0 : Int) : ZMod 2) else 0 from ?_]
  · rw [Finset.sum_ite_eq' (Finset.range n) k _, if_pos (Finset.mem_range.2 hk)]
  · apply Finset.sum_congr rfl
    intro i hi
    rw [AddMonoidAlgebra.single_apply]
    by_cases h : i = k
    · rw [if_pos h, if_pos (by rw [h])]
    · rw [if_neg h, if_neg]
      intro hcast
      exact h (natCast_zmod_inj (Finset.mem_range.1 hi) hk hcast)

theorem isBit_cast_inj {x y : Int} (hx : isBit x) (hy : isBit y)
    (h : ((x : Int) : ZMod 2) = ((y : Int) : ZMod 2)) : x = y := by
  rcases hx with h1 | h1 <;> rcases hy with h2 | h2 <;> rw [h1, h2] at h ⊢ <;>
    first
      | rfl
      | (exfalso
         rw [Int.cast_zero, Int.cast_one] at h
         revert h
         decide)

theorem ringMap_inj {n : Nat} {a b : List Int} (hla : a.length = n) (hlb : b.length = n)
    (ha : bitVec a) (hb : bitVec b) (h : ringMap n a = ringMap n b) : a = b := by
  apply List.ext_getElem (by omega)
  intro k hk1 hk2
  have hkn : k < n := by omega
  have := congrArg (fun f => f ((k : ZMod n))) h
  simp only [ringMap_apply n a hkn, ringMap_apply n b hkn] at this
  have hx := isBit_cast_inj (bitVec_getD ha k) (bitVec_getD hb k) this
  rwa [getD_lt hk1, getD_lt hk2] at hx

theorem ringMap_polyAdd (n : Nat) (a b : List Int) :
    ringMap n (polyAdd n a b) = ringMap n a + ringMap n b := by
  unfold ringMap
  rw [← Finset.sum_add_distrib]
  apply Finset.sum_congr rfl
  intro k hk
  rw [polyAdd_getD n a b (Finset.mem_range.1 hk), intCast_tmod_two, Int.cast_add,
    AddMonoidAlgebra.single_add]

theorem countP_cast_zmod {α : Type} (l : List α) (q : α → Bool) :
    ((l.countP q : Nat) : ZMod 2) = (l.map (fun x => if q x then (1 : ZMod 2) else 0)).sum := by
  induction l with
  | nil => simp
  | cons x xs ih => by_cases h : q x <;> simp [List.countP_cons, h, ih] <;> ring

theorem list_range_sum {M : Type} [AddCommMonoid M] (f : Nat → M) (n : Nat) :
    ((List.range n).map f).sum = ∑ i ∈ Finset.range n, f i := by
  induction n with
  | zero => simp
  | succ m ih => simp [List.range_succ, Finset.sum_range_succ, ih]

theorem sum_flatMap {α M : Type} [AddCommMonoid M] (l : List α) (g : α → List M) :
    (l.flatMap g).sum = (l.map (fun x => (g x).sum)).sum := by
  induction l with
  | nil => rfl
  | cons x xs ih => simp [List.flatMap_cons, ih]

theorem sum_pairList {M : Type} [AddCommMonoid M] (n : Nat) (f : Nat × Nat → M) :
    ((pairList n).map f).sum = ∑ i ∈ Finset.range n, ∑ j ∈ Finset.range n, f (i, j) := by
  rw [pairList, List.map_flatMap, sum_flatMap]
  rw [show ((List.range n).map
        (fun x => ((fun i => (List.range n).map fun j => (i, j)) x).map f |>.sum))
      = (List.range n).map (fun i => ∑ j ∈ Finset.range n, f (i, j)) from ?_]
  · rw [list_range_sum]
  · apply List.map_congr_left
    intro i _
    rw [List.map_map]
    exact list_range_sum (fun j => f (i, j)) n

theorem sum_single_ite (n : Nat) {pos : Nat} (hpos : pos < n) (w : ZMod 2) :
    (∑ k ∈ Finset.range n,
      AddMonoidAlgebra.single ((k : ZMod n)) (if pos = k then w else 0))
      = AddMonoidAlgebra.single ((pos : ZMod n)) w := by
  rw [show (∑ k ∈ Finset.range n,
        AddMonoidAlgebra.single ((k : ZMod n)) (if pos = k then w else 0))
      = ∑ k ∈ Finset.range n,
        if pos = k then AddMonoidAlgebra.single ((k : ZMod n)) w else 0 from ?_]
  · rw [Finset.sum_ite_eq (Finset.range n) pos _, if_pos (Finset.mem_range.2 hpos)]
  · apply Finset.sum_congr rfl
    intro k _
    by_cases h : pos = k
    · rw [if_pos h, if_pos h]
    · rw [if_neg h, if_neg h]
      exact AddMonoidAlgebra.single_zero _

theorem ringMap_polyMul (n : Nat) {a b : List Int} (ha : bitVec a) (hb : bitVec b) :
    ringMap n (polyMul n a b) = ringMap n a * ringMap n b := by
  have hstep1 : ringMap n (polyMul n a b)
      = ∑ k ∈ Finset.range n, ∑ i ∈ Finset.range n, ∑ j ∈ Finset.range n,
          AddMonoidAlgebra.single ((k : ZMod n))
            (if mulQual n a b k (i, j) then (1 : ZMod 2) else 0) := by
    unfold ringMap
    apply Finset.sum_congr rfl
    intro k hk
    rw [polyMul_getD n a b (Finset.mem_range.1 hk), intCast_emod_two, Int.cast_natCast,
      countP_cast_zmod, sum_pairList]
    have e1 : AddMonoidAlgebra.single ((k : ZMod n))
        (∑ i ∈ Finset.range n, ∑ j ∈ Finset.range n,
          (if mulQual n a b k (i, j) then (1 : ZMod 2) else 0))
        = ∑ i ∈ Finset.range n, AddMonoidAlgebra.single ((k : ZMod n))
            (∑ j ∈ Finset.range n, (if mulQual n a b k (i, j) then (1 : ZMod 2) else 0)) :=
      map_sum (Finsupp.singleAddHom ((k : ZMod n))) _ _
    rw [e1]
    apply Finset.sum_congr rfl
    intro i _
    exact map_sum (Finsupp.singleAddHom ((k : ZMod n))) _ _
  rw [hstep1, Finset.sum_comm]
  have hstep2 : ∀ i ∈ Finset.range n,
      (∑ k ∈ Finset.range n, ∑ j ∈ Finset.range n,
        AddMonoidAlgebra.single ((k : ZMod n))
          (if mulQual n a b k (i, j) then (1 : ZMod 2) else 0))
      = ∑ j ∈ Finset.range n, ∑ k ∈ Finset.range n,
          AddMonoidAlgebra.single ((k : ZMod n))
            (if mulQual n a b k (i, j) then (1 : ZMod 2) else 0) := by
    intro i _
    exact Finset.sum_comm
  rw [Finset.sum_congr rfl hstep2, ringMap, ringMap, Finset.sum_mul_sum]
  apply Finset.sum_congr rfl
  intro i hi
  apply Finset.sum_congr rfl
  intro j hj
  have hin : i < n := Finset.mem_range.1 hi
  have hjn : j < n := Finset.mem_range.1 hj
  have hpos : (i + j) % n < n := Nat.mod_lt _ (by omega)
  have hq : ∀ k : Nat, (if mulQual n a b k (i, j) then (1 : ZMod 2) else 0)
      = if (i + j) % n = k then
          (if a.getD i 0 ≠ 0 ∧ b.getD j 0 ≠ 0 then (1 : ZMod 2) else 0)
        else 0 := by
    intro k
    by_cases hc : a.getD i 0 ≠ 0 ∧ b.getD j 0 ≠ 0
    · by_cases hpk : (i + j) % n = k
      · rw [if_pos hpk, if_pos hc]
        rw [show mulQual n a b k (i, j) = true by
          unfold mulQual
          rw [decide_eq_true hc, decide_eq_true hpk]
          rfl]
        rfl
      · rw [if_neg hpk]
        rw [show mulQual n a b k (i, j) = false by
          unfold mulQual
          rw [decide_eq_false hpk, Bool.and_false]]
        rfl
    · rw [show mulQual n a b k (i, j) = false by
        unfold mulQual
        rw [decide_eq_false hc, Bool.false_and]]
      rw [if_neg (by decide : ¬(false = true)), if_neg hc, ite_self]
  rw [show (∑ k ∈ Finset.range n,
        AddMonoidAlgebra.single ((k : ZMod n))
          (if mulQual n a b k (i, j) then (1 : ZMod 2) else 0))
      = ∑ k ∈ Finset.range n,
        AddMonoidAlgebra.single ((k : ZMod n))
          (if (i + j) % n = k then
            (if a.getD i 0 ≠ 0 ∧ b.getD j 0 ≠ 0 then (1 : ZMod 2) else 0)
          else 0) from
    Finset.sum_congr rfl (fun k _ => by rw [hq k])]
  rw [sum_single_ite n hpos _]
  rw [AddMonoidAlgebra.single_mul_single]
  have hidx : (((i + j) % n : Nat) : ZMod n) = ((i : ZMod n)) + ((j : ZMod n)) := by
    have : (((i + j) % n : Nat) : ZMod n) = (((i + j) : Nat) : ZMod n) := by
      exact_mod_cast ZMod.natCast_mod (i + j) n
    rw [this, Nat.cast_add]
  rw [hidx]
  congr 1
  rcases bitVec_getD ha i with h1 | h1 <;> rcases bitVec_getD hb j with h2 | h2 <;>
    rw [h1, h2] <;> norm_num

/-! ### Characterizing the Hamming-weight sampler loop -/

theorem map_range_getD {α : Type} (d : α) (l : List α) (m : Nat) (h : m ≤ l.length) :
    (List.range m).map (fun i => l.getD i d) = l.take m := by
  apply List.ext_getElem
  · simp [Nat.min_eq_left h]
  · intro i h1 h2
    simp only [List.getElem_map, List.getElem_range, List.getElem_take]
    exact List.getD_eq_getElem l d (lt_of_lt_of_le (by simpa using h1) h)

theorem foldl_set_one_length (ps : List Nat) (acc : List Int) :
    (ps.foldl (fun res p => res.set p 1) acc).length = acc.length := by
  induction ps generalizing acc with
  | nil => rfl
  | cons p ps ih => rw [List.foldl_cons, ih]; simp

theorem foldl_set_one_getD (ps : List Nat) :
    ∀ acc : List Int, (∀ p ∈ ps, p < acc.length) → ∀ k, k < acc.length →
      (ps.foldl (fun res p => res.set p 1) acc).getD k 0
        = if k ∈ ps then 1 else acc.getD k 0 := by
  induction ps with
  | nil =>
    intro acc _ k _
    rw [List.foldl_nil, if_neg (List.not_mem_nil k)]
  | cons p ps ih =>
    intro acc hmem k hk
    rw [List.foldl_cons,
      ih (acc.set p 1) (by simpa using fun q hq => hmem q (List.mem_cons_of_mem p hq))
        k (by simpa using hk)]
    by_cases hin : k ∈ ps
    · rw [if_pos hin, if_pos (List.mem_cons_of_mem p hin)]
    · rw [if_neg hin]
      by_cases hkp : k = p
      · rw [if_pos (by rw [hkp]; exact List.mem_cons_self p ps), hkp,
          getD_set_self _ (hmem p (List.mem_cons_self p ps))]
      · rw [getD_set_ne _ (fun hpk => hkp hpk.symm), if_neg (by
          intro hc
          rcases List.mem_cons.1 hc with h | h
          · exact hkp h
          · exact hin h)]

theorem sampleHWT_eq_take (n h : Nat) (positions : List Nat)
    (hlen : min h n ≤ positions.length) :
    SimpleHWT.sampleHWT n h positions
      = (positions.take (min h n)).foldl (fun res p => res.set p 1) (List.replicate n 0) := by
  unfold SimpleHWT.sampleHWT
  rw [← map_range_getD 0 positions (min h n) hlen, List.foldl_map]

theorem bitVec_foldl_set_one (ps : List Nat) {acc : List Int} (h : bitVec acc) :
    bitVec (ps.foldl (fun res p => res.set p 1) acc) := by
  induction ps generalizing acc with
  | nil => exact h
  | cons p ps ih => exact ih (bitVec_set h (Or.inr rfl) p)

theorem foldl_set_pos_length (idx positions : List Nat) (acc : List Int) :
    (idx.foldl (fun result i => result.set (positions.getD i 0) 1) acc).length
      = acc.length := by
  induction idx generalizing acc with
  | nil => rfl
  | cons i is ih => rw [List.foldl_cons, ih]; simp

theorem foldl_set_pos_bitVec (idx positions : List Nat) {acc : List Int} (h : bitVec acc) :
    bitVec (idx.foldl (fun result i => result.set (positions.getD i 0) 1) acc) := by
  induction idx generalizing acc with
  | nil => exact h
  | cons i is ih => exact ih (bitVec_set h (Or.inr rfl) _)

theorem sampleHWT_length (n h : Nat) (positions : List Nat) :
    (SimpleHWT.sampleHWT n h positions).length = n := by
  unfold SimpleHWT.sampleHWT
  rw [foldl_set_pos_length]
  simp

theorem bitVec_sampleHWT (n h : Nat) (positions : List Nat) :
    bitVec (SimpleHWT.sampleHWT n h positions) := by
  unfold SimpleHWT.sampleHWT
  exact foldl_set_pos_bitVec _ positions (bitVec_replicate n)

theorem bitVec_count_zero_add_count_one (l : List Int) :
    bitVec l → l.count 0 + l.count 1 = l.length := by
  induction l with
  | nil => intro _; rfl
  | cons x xs ih =>
    intro h
    have hxs : bitVec xs := fun y hy => h y (List.mem_cons_of_mem x hy)
    have ihs := ih hxs
    rcases h x (List.mem_cons_self x xs) with hx | hx <;> subst hx
    · rw [List.count_cons_self, List.count_cons_of_ne (by decide) xs, List.length_cons]
      omega
    · rw [List.count_cons_self, List.count_cons_of_ne (by decide) xs, List.length_cons]
      omega

theorem ext_getD {l1 l2 : List Int} (hlen : l1.length = l2.length)
    (h : ∀ k, k < l1.length → l1.getD k 0 = l2.getD k 0) : l1 = l2 := by
  apply List.ext_getElem hlen
  intro i h1 h2
  have hi := h i h1
  rwa [getD_lt h1, getD_lt h2] at hi

theorem sampleHWT_counts (n h : Nat) (positions : List Nat)
    (hperm : positions.Perm (List.range n)) (hh : h ≤ n) :
    (SimpleHWT.sampleHWT n h positions).length = n ∧
    (SimpleHWT.sampleHWT n h positions).count 1 = h ∧
    (SimpleHWT.sampleHWT n h positions).count 0 = n - h := by
  have hplen : positions.length = n := by rw [hperm.length_eq, List.length_range]
  have hmin : min h n = h := Nat.min_eq_left hh
  have hnodup : positions.Nodup := hperm.nodup_iff.2 (List.nodup_range n)
  have htsub : (positions.take h).Sublist positions := List.take_sublist h positions
  have htnodup : (positions.take h).Nodup := List.Nodup.sublist htsub hnodup
  have htlen : (positions.take h).length = h := by rw [List.length_take]; omega
  have htmem : ∀ p ∈ positions.take h, p < n := by
    intro p hp
    have := hperm.mem_iff.1 (List.mem_of_mem_take hp)
    simpa using this
  have heq : SimpleHWT.sampleHWT n h positions
      = (List.range n).map (fun k => if k ∈ positions.take h then (1 : Int) else 0) := by
    rw [sampleHWT_eq_take n h positions (by omega), hmin]
    apply ext_getD
    · rw [foldl_set_one_length]; simp
    · intro k hk
      have hkn : k < n := by rw [foldl_set_one_length] at hk; simpa using hk
      rw [foldl_set_one_getD (positions.take h) (List.replicate n 0)
        (by intro p hp; simpa using htmem p hp) k (by simpa using hkn)]
      rw [getD_replicate hkn]
      rw [getD_lt (by simpa using hkn)]
      simp only [List.getElem_map, List.getElem_range]
  have hcount1 : (SimpleHWT.sampleHWT n h positions).count 1 = h := by
    rw [heq, List.count_eq_countP, List.countP_map]
    rw [show ((fun x => x == (1 : Int)) ∘ fun k => if k ∈ positions.take h then (1 : Int) else 0)
        = fun k => decide (k ∈ positions.take h) from ?_]
    · rw [List.countP_eq_length_filter]
      have hfn : ((List.range n).filter fun k => decide (k ∈ positions.take h)).Nodup :=
        List.Nodup.filter _ (List.nodup_range n)
      have hpm : ((List.range n).filter fun k => decide (k ∈ positions.take h)).Perm
          (positions.take h) := by
        apply List.perm_of_nodup_nodup_toFinset_eq hfn htnodup
        apply Finset.ext
        intro a
        rw [List.mem_toFinset, List.mem_toFinset, List.mem_filter]
        constructor
        · intro ha
          exact of_decide_eq_true ha.2
        · intro ha
          exact ⟨by simpa using htmem a ha, decide_eq_true ha⟩
      rw [hpm.length_eq, htlen]
    · funext k
      by_cases hmem : k ∈ positions.take h
      · rw [Function.comp_apply, if_pos hmem, decide_eq_true hmem]
        rfl
      · rw [Function.comp_apply, if_neg hmem, decide_eq_false hmem]
        rfl
  refine ⟨sampleHWT_length n h positions, hcount1, ?_⟩
  have := bitVec_count_zero_add_count_one (SimpleHWT.sampleHWT n h positions)
    (bitVec_sampleHWT n h positions)
  rw [hcount1, sampleHWT_length n h positions] at this
  omega

/-! ### More `tmod` facts and the `encode`/`decode` loops -/

theorem tmod_two_cases (x : Int) : x.tmod 2 = -1 ∨ x.tmod 2 = 0 ∨ x.tmod 2 = 1 := by
  rcases x with m | m
  · rw [show (Int.ofNat m).tmod 2 = Int.ofNat (m % 2) from rfl]
    rcases Nat.mod_two_eq_zero_or_one m with h | h <;> rw [h]
    · exact Or.inr (Or.inl rfl)
    · exact Or.inr (Or.inr rfl)
  · rw [show (Int.negSucc m).tmod 2 = -Int.ofNat ((m + 1) % 2) from rfl]
    rcases Nat.mod_two_eq_zero_or_one (m + 1) with h | h <;> rw [h]
    · exact Or.inr (Or.inl (by decide))
    · exact Or.inl (by decide)

theorem tmod_two_idem (x : Int) : (x.tmod 2).tmod 2 = x.tmod 2 := by
  rcases tmod_two_cases x with h | h | h <;> rw [h] <;> decide

theorem isBit_tmod_two_of_bit {x : Int} (hx : isBit x) : x.tmod 2 = x := by
  rcases hx with h | h <;> rw [h] <;> decide

theorem isBit_reduceErr (c : Int) : isBit (SimpleBinaryCKKS.reduceErrCoeff c) :=
  isBit_tmod_two_of_nonneg _ (abs_nonneg c)

theorem bitVec_mapReduceErr (e_rand : List Int) :
    bitVec (e_rand.map SimpleBinaryCKKS.reduceErrCoeff) := by
  intro x hx
  rw [List.mem_map] at hx
  obtain ⟨c, _, rfl⟩ := hx
  exact isBit_reduceErr c

theorem listSetCoeff_length (n : Nat) (cs : List Int) (i : Nat) (v : Int) :
    (SimpleBinaryCKKS.listSetCoeff n cs i v).length = cs.length := by
  unfold SimpleBinaryCKKS.listSetCoeff
  split <;> simp

theorem foldl_listSetCoeff_length (n : Nat) (g : Nat → Int) (idx : List Nat) (acc : List Int) :
    (idx.foldl (fun result i => SimpleBinaryCKKS.listSetCoeff n result i (g i)) acc).length
      = acc.length := by
  induction idx generalizing acc with
  | nil => rfl
  | cons i is ih => rw [List.foldl_cons, ih, listSetCoeff_length]

theorem encode_range_getD (n : Nat) (data : List Int) (m : Nat) (hm : m ≤ n) {k : Nat}
    (hk : k < n) :
    ((List.range m).foldl
        (fun result i => SimpleBinaryCKKS.listSetCoeff n result i ((data.getD i 0).tmod 2))
        (List.replicate n 0)).getD k 0
      = if k < m then (data.getD k 0).tmod 2 else 0 := by
  induction m with
  | zero =>
    rw [List.range_zero, List.foldl_nil, getD_replicate hk, if_neg (by omega)]
  | succ m ih =>
    have hlen : ((List.range m).foldl
        (fun result i => SimpleBinaryCKKS.listSetCoeff n result i ((data.getD i 0).tmod 2))
        (List.replicate n 0)).length = n := by
      rw [foldl_listSetCoeff_length]
      simp
    rw [List.range_succ, List.foldl_append, List.foldl_cons, List.foldl_nil,
      SimpleBinaryCKKS.listSetCoeff, if_pos (by omega : m < n)]
    by_cases hkm : k = m
    · subst hkm
      rw [getD_set_self _ (by omega), if_pos (by omega), tmod_two_idem]
    · rw [getD_set_ne _ (fun hc => hkm hc.symm), ih (by omega)]
      by_cases hk2 : k < m
      · rw [if_pos hk2, if_pos (by omega)]
      · rw [if_neg hk2, if_neg (by omega)]

theorem encode_length (n : Nat) (data : List Int) :
    (SimpleBinaryCKKS.encode n data).length = n := by
  unfold SimpleBinaryCKKS.encode
  rw [foldl_listSetCoeff_length]
  simp

theorem encode_getD (n : Nat) (data : List Int) {k : Nat} (hk : k < n) :
    (SimpleBinaryCKKS.encode n data).getD k 0
      = if k < min data.length n then (data.getD k 0).tmod 2 else 0 := by
  unfold SimpleBinaryCKKS.encode
  exact encode_range_getD n data (min data.length n) (by omega) hk

theorem bitVec_encode (n : Nat) (data : List Int) (hd : ∀ x ∈ data, 0 ≤ x) :
    bitVec (SimpleBinaryCKKS.encode n data) := by
  intro x hx
  obtain ⟨k, hk, rfl⟩ := List.getElem_of_mem hx
  have hkn : k < n := by
    rw [encode_length] at hk
    exact hk
  rw [← getD_lt hk, encode_getD n data hkn]
  by_cases h2 : k < min data.length n
  · rw [if_pos h2]
    apply isBit_tmod_two_of_nonneg
    rcases Nat.lt_or_ge k data.length with h3 | h3
    · rw [getD_lt h3]
      exact hd _ (List.getElem_mem h3)
    · rw [getD_le h3]
  · rw [if_neg h2]
    exact Or.inl rfl

theorem decode_length (n : Nat) (cs : List Int) (e : Nat) :
    (SimpleBinaryCKKS.decode n cs e).length = e := by
  simp [SimpleBinaryCKKS.decode]

theorem decode_getD (n : Nat) (cs : List Int) (e : Nat) {k : Nat} (hk : k < e) :
    (SimpleBinaryCKKS.decode n cs e).getD k 0 = if k < n then cs.getD k 0 else 0 := by
  rw [getD_lt (by rw [decode_length]; exact hk)]
  simp [SimpleBinaryCKKS.decode]

/-! ### Unfolding the engine operations componentwise -/

theorem keyGen_s (n h : Nat) (s_rand : List Nat) (a_rand e_rand a0_rand e0_rand : List Int) :
    (SimpleBinaryCKKS.keyGen n h s_rand a_rand e_rand a0_rand e0_rand).s
      = resizeTo (SimpleHWT.sampleHWT n h s_rand) n := rfl

theorem keyGen_pk_a (n h : Nat) (s_rand : List Nat) (a_rand e_rand a0_rand e0_rand : List Int) :
    (SimpleBinaryCKKS.keyGen n h s_rand a_rand e_rand a0_rand e0_rand).pk_a
      = resizeTo a_rand n := rfl

theorem keyGen_pk_b (n h : Nat) (s_rand : List Nat) (a_rand e_rand a0_rand e0_rand : List Int) :
    (SimpleBinaryCKKS.keyGen n h s_rand a_rand e_rand a0_rand e0_rand).pk_b
      = polyAdd n
          (polyMul n (resizeTo a_rand n) (resizeTo (SimpleHWT.sampleHWT n h s_rand) n))
          (resizeTo (e_rand.map SimpleBinaryCKKS.reduceErrCoeff) n) := rfl

theorem keyGen_evk_a (n h : Nat) (s_rand : List Nat) (a_rand e_rand a0_rand e0_rand : List Int) :
    (SimpleBinaryCKKS.keyGen n h s_rand a_rand e_rand a0_rand e0_rand).evk_a
      = resizeTo a0_rand n := rfl

theorem keyGen_evk_b (n h : Nat) (s_rand : List Nat) (a_rand e_rand a0_rand e0_rand : List Int) :
    (SimpleBinaryCKKS.keyGen n h s_rand a_rand e_rand a0_rand e0_rand).evk_b
      = polyAdd n
          (polyAdd n
            (polyMul n (resizeTo a0_rand n) (resizeTo (SimpleHWT.sampleHWT n h s_rand) n))
            (resizeTo (e0_rand.map SimpleBinaryCKKS.reduceErrCoeff) n))
          (polyMul n (resizeTo (SimpleHWT.sampleHWT n h s_rand) n)
            (resizeTo (SimpleHWT.sampleHWT n h s_rand) n)) := rfl

theorem encrypt_c0 (n : Nat) (sigma : ℚ) (pt : List Int) (keys : SimpleBinaryCKKSKeys)
    (v_rand e0_rand e1_rand : List Int) :
    (SimpleBinaryCKKS.encrypt n sigma pt keys v_rand e0_rand e1_rand).c0
      = polyAdd n (polyAdd n (polyMul n (resizeTo v_rand n) keys.pk_b) pt)
          (resizeTo (e0_rand.map SimpleBinaryCKKS.reduceErrCoeff) n) := rfl

theorem encrypt_c1 (n : Nat) (sigma : ℚ) (pt : List Int) (keys : SimpleBinaryCKKSKeys)
    (v_rand e0_rand e1_rand : List Int) :
    (SimpleBinaryCKKS.encrypt n sigma pt keys v_rand e0_rand e1_rand).c1
      = polyAdd n (polyMul n (resizeTo v_rand n) keys.pk_a)
          (resizeTo (e1_rand.map SimpleBinaryCKKS.reduceErrCoeff) n) := rfl

theorem decrypt_def (n : Nat) (ct : SimpleBinaryCKKSCiphertext) (keys : SimpleBinaryCKKSKeys) :
    SimpleBinaryCKKS.decrypt n ct keys = polyAdd n ct.c0 (polyMul n ct.c1 keys.s) := rfl

theorem mapReduceErr_zero {e_rand : List Int}
    (he : ∀ x ∈ e_rand, SimpleBinaryCKKS.reduceErrCoeff x = 0) (n : Nat) :
    resizeTo (e_rand.map SimpleBinaryCKKS.reduceErrCoeff) n = List.replicate n 0 := by
  apply resizeTo_eq_replicate
  intro x hx
  rw [List.mem_map] at hx
  obtain ⟨c, hc, rfl⟩ := hx
  exact he c hc

theorem keyGen_bitVec (n h : Nat) (s_rand : List Nat)
    (a_rand e_rand a0_rand e0_rand : List Int) (ha : bitVec a_rand) (ha0 : bitVec a0_rand) :
    bitVec (SimpleBinaryCKKS.keyGen n h s_rand a_rand e_rand a0_rand e0_rand).s ∧
    bitVec (SimpleBinaryCKKS.keyGen n h s_rand a_rand e_rand a0_rand e0_rand).pk_a ∧
    bitVec (SimpleBinaryCKKS.keyGen n h s_rand a_rand e_rand a0_rand e0_rand).pk_b ∧
    bitVec (SimpleBinaryCKKS.keyGen n h s_rand a_rand e_rand a0_rand e0_rand).evk_a ∧
    bitVec (SimpleBinaryCKKS.keyGen n h s_rand a_rand e_rand a0_rand e0_rand).evk_b := by
  refine ⟨?_, ?_, ?_, ?_, ?_⟩
  · rw [keyGen_s]
    exact bitVec_resizeTo (bitVec_sampleHWT n h s_rand) n
  · rw [keyGen_pk_a]
    exact bitVec_resizeTo ha n
  · rw [keyGen_pk_b]
    exact bitVec_polyAdd n (bitVec_polyMul n _ _)
      (bitVec_resizeTo (bitVec_mapReduceErr e_rand) n)
  · rw [keyGen_evk_a]
    exact bitVec_resizeTo ha0 n
  · rw [keyGen_evk_b]
    exact bitVec_polyAdd n
      (bitVec_polyAdd n (bitVec_polyMul n _ _)
        (bitVec_resizeTo (bitVec_mapReduceErr e0_rand) n))
      (bitVec_polyMul n _ _)

theorem keyGen_lengths (n h : Nat) (s_rand : List Nat)
    (a_rand e_rand a0_rand e0_rand : List Int) :
    (SimpleBinaryCKKS.keyGen n h s_rand a_rand e_rand a0_rand e0_rand).s.length = n ∧
    (SimpleBinaryCKKS.keyGen n h s_rand a_rand e_rand a0_rand e0_rand).pk_a.length = n ∧
    (SimpleBinaryCKKS.keyGen n h s_rand a_rand e_rand a0_rand e0_rand).pk_b.length = n ∧
    (SimpleBinaryCKKS.keyGen n h s_rand a_rand e_rand a0_rand e0_rand).evk_a.length = n ∧
    (SimpleBinaryCKKS.keyGen n h s_rand a_rand e_rand a0_rand e0_rand).evk_b.length = n := by
  refine ⟨?_, ?_, ?_, ?_, ?_⟩
  · rw [keyGen_s, resizeTo_length]
  · rw [keyGen_pk_a, resizeTo_length]
  · rw [keyGen_pk_b, polyAdd_length]
  · rw [keyGen_evk_a, resizeTo_length]
  · rw [keyGen_evk_b, polyAdd_length]

theorem cancel_mul_assoc (n : Nat) (x y z w : AddMonoidAlgebra (ZMod 2) (ZMod n)) :
    x * (y * z) + w + (x * y) * z = w := by
  have h1 : x * (y * z) + w + (x * y) * z = w + (x * (y * z) + x * (y * z)) := by ring
  rw [h1, addSelf_eq_zero, add_zero]

/-- With all three Gaussian error draws reducing to zero, decryption undoes
encryption exactly: the RLWE mask cancels because `b = a·s + 0` and
`c0 + c1·s = v·(a·s) + m + (v·a)·s = m` in characteristic 2. -/
theorem decrypt_encrypt_eq_encode
    (n h : Nat) (sigma : ℚ) (s_rand : List Nat)
    (a_rand e_rand a0_rand e0k_rand m v_rand e0_rand e1_rand : List Int)
    (ha : bitVec a_rand) (hv : bitVec v_rand) (hm : bitVec m)
    (he : ∀ x ∈ e_rand, SimpleBinaryCKKS.reduceErrCoeff x = 0)
    (he0 : ∀ x ∈ e0_rand, SimpleBinaryCKKS.reduceErrCoeff x = 0)
    (he1 : ∀ x ∈ e1_rand, SimpleBinaryCKKS.reduceErrCoeff x = 0) :
    SimpleBinaryCKKS.decrypt n
      (SimpleBinaryCKKS.encrypt n sigma (SimpleBinaryCKKS.encode n m)
        (SimpleBinaryCKKS.keyGen n h s_rand a_rand e_rand a0_rand e0k_rand)
        v_rand e0_rand e1_rand)
      (SimpleBinaryCKKS.keyGen n h s_rand a_rand e_rand a0_rand e0k_rand)
      = SimpleBinaryCKKS.encode n m := by
  have hsb : bitVec (resizeTo (SimpleHWT.sampleHWT n h s_rand) n) :=
    bitVec_resizeTo (bitVec_sampleHWT n h s_rand) n
  have hab : bitVec (resizeTo a_rand n) := bitVec_resizeTo ha n
  have hvb : bitVec (resizeTo v_rand n) := bitVec_resizeTo hv n
  have hmb : bitVec (SimpleBinaryCKKS.encode n m) :=
    bitVec_encode n m (fun x hx => by rcases hm x hx with h1 | h1 <;> omega)
  have hpkb : bitVec (SimpleBinaryCKKS.keyGen n h s_rand a_rand e_rand a0_rand e0k_rand).pk_b := by
    rw [keyGen_pk_b]
    exact bitVec_polyAdd n (bitVec_polyMul n _ _)
      (bitVec_resizeTo (bitVec_mapReduceErr e_rand) n)
  have hct0 : bitVec ((SimpleBinaryCKKS.encrypt n sigma (SimpleBinaryCKKS.encode n m)
      (SimpleBinaryCKKS.keyGen n h s_rand a_rand e_rand a0_rand e0k_rand)
      v_rand e0_rand e1_rand).c0) := by
    rw [encrypt_c0]
    exact bitVec_polyAdd n (bitVec_polyAdd n (bitVec_polyMul n _ _) hmb)
      (bitVec_resizeTo (bitVec_mapReduceErr e0_rand) n)
  have hct1 : bitVec ((SimpleBinaryCKKS.encrypt n sigma (SimpleBinaryCKKS.encode n m)
      (SimpleBinaryCKKS.keyGen n h s_rand a_rand e_rand a0_rand e0k_rand)
      v_rand e0_rand e1_rand).c1) := by
    rw [encrypt_c1]
    exact bitVec_polyAdd n (bitVec_polyMul n _ _)
      (bitVec_resizeTo (bitVec_mapReduceErr e1_rand) n)
  have hlen1 : (SimpleBinaryCKKS.decrypt n
      (SimpleBinaryCKKS.encrypt n sigma (SimpleBinaryCKKS.encode n m)
        (SimpleBinaryCKKS.keyGen n h s_rand a_rand e_rand a0_rand e0k_rand)
        v_rand e0_rand e1_rand)
      (SimpleBinaryCKKS.keyGen n h s_rand a_rand e_rand a0_rand e0k_rand)).length = n := by
    rw [decrypt_def, polyAdd_length]
  have hdecb : bitVec (SimpleBinaryCKKS.decrypt n
      (SimpleBinaryCKKS.encrypt n sigma (SimpleBinaryCKKS.encode n m)
        (SimpleBinaryCKKS.keyGen n h s_rand a_rand e_rand a0_rand e0k_rand)
        v_rand e0_rand e1_rand)
      (SimpleBinaryCKKS.keyGen n h s_rand a_rand e_rand a0_rand e0k_rand)) := by
    rw [decrypt_def]
    exact bitVec_polyAdd n hct0 (bitVec_polyMul n _ _)
  have hBval : ringMap n
      (SimpleBinaryCKKS.keyGen n h s_rand a_rand e_rand a0_rand e0k_rand).pk_b
      = ringMap n (resizeTo a_rand n)
        * ringMap n (resizeTo (SimpleHWT.sampleHWT n h s_rand) n) := by
    rw [keyGen_pk_b, mapReduceErr_zero he n, ringMap_polyAdd, ringMap_replicate_zero,
      add_zero, ringMap_polyMul n hab hsb]
  have hsb2 : bitVec (SimpleBinaryCKKS.keyGen n h s_rand a_rand e_rand a0_rand e0k_rand).s := by
    rw [keyGen_s]
    exact hsb
  have hab2 : bitVec (SimpleBinaryCKKS.keyGen n h s_rand a_rand e_rand a0_rand e0k_rand).pk_a := by
    rw [keyGen_pk_a]
    exact hab
  apply ringMap_inj hlen1 (encode_length n m) hdecb hmb
  rw [decrypt_def, ringMap_polyAdd, ringMap_polyMul n hct1 hsb2,
    encrypt_c0, encrypt_c1, mapReduceErr_zero he0 n, mapReduceErr_zero he1 n,
    ringMap_polyAdd, ringMap_polyAdd, ringMap_polyAdd, ringMap_replicate_zero,
    add_zero, add_zero, ringMap_polyMul n hvb hpkb,
    ringMap_polyMul n hvb hab2, hBval, keyGen_pk_a, keyGen_s]
  exact cancel_mul_assoc n _ _ _ _

/-! ### The specification's description of `multiply`: an XOR of ANDs -/

/-- Modelled from the spec sentence for `multiply`:
"result[k] = XOR over all i,j with (i+j) mod n = k of (a[i] AND b[j])".
This definition follows the spec's words, to be compared with `polyMul`,
which is translated from the source loop. -/
def xorConvSpec (n : Nat) (a b : List Int) (k : Nat) : Bool :=
  (((pairList n).filter fun p => (p.1 + p.2) % n == k).map
      fun p => (a.getD p.1 0 == 1) && (b.getD p.2 0 == 1)).foldr xor false

theorem foldr_xor_count (l : List Bool) :
    l.foldr xor false = decide (l.count true % 2 = 1) := by
  induction l with
  | nil => rfl
  | cons x xs ih =>
    rw [List.foldr_cons, ih]
    cases x
    · rw [List.count_cons_of_ne (by decide) xs, Bool.false_xor]
    · rw [List.count_cons_self]
      rcases Nat.mod_two_eq_zero_or_one (xs.count true) with h | h
      · have h1 : (xs.count true + 1) % 2 = 1 := by omega
        rw [h, h1]
        decide
      · have h1 : (xs.count true + 1) % 2 = 0 := by omega
        rw [h, h1]
        decide

theorem xorConvSpec_eq_countP (n : Nat) {a b : List Int} (ha : bitVec a) (hb : bitVec b)
    (k : Nat) :
    xorConvSpec n a b k = decide ((pairList n).countP (mulQual n a b k) % 2 = 1) := by
  unfold xorConvSpec
  rw [foldr_xor_count]
  have hcnt : (((pairList n).filter fun p => (p.1 + p.2) % n == k).map
      fun p => (a.getD p.1 0 == 1) && (b.getD p.2 0 == 1)).count true
      = (pairList n).countP (mulQual n a b k) := by
    rw [List.count_eq_countP, List.countP_map, List.countP_filter]
    apply List.countP_congr
    intro p _
    rw [Function.comp_apply]
    rw [show ((a.getD p.1 0 == 1 && b.getD p.2 0 == 1) == true)
        = (a.getD p.1 0 == 1 && b.getD p.2 0 == 1) from by
      cases (a.getD p.1 0 == 1 && b.getD p.2 0 == 1) <;> rfl]
    unfold mulQual
    have hba : (a.getD p.1 0 == 1) = decide (a.getD p.1 0 ≠ 0) := by
      rcases bitVec_getD ha p.1 with h1 | h1 <;> rw [h1] <;> decide
    have hbb : (b.getD p.2 0 == 1) = decide (b.getD p.2 0 ≠ 0) := by
      rcases bitVec_getD hb p.2 with h1 | h1 <;> rw [h1] <;> decide
    have hcls : ((p.1 + p.2) % n == k) = decide ((p.1 + p.2) % n = k) := by
      by_cases h1 : (p.1 + p.2) % n = k
      · rw [decide_eq_true h1, beq_iff_eq.2 h1]
      · rw [decide_eq_false h1, beq_eq_false_iff_ne.2 h1]
    rw [hba, hbb, hcls]
    rw [show (decide (a.getD p.1 0 ≠ 0) && decide (b.getD p.2 0 ≠ 0))
        = decide (a.getD p.1 0 ≠ 0 ∧ b.getD p.2 0 ≠ 0) from by
      by_cases h1 : a.getD p.1 0 ≠ 0 <;> by_cases h2 : b.getD p.2 0 ≠ 0 <;>
        simp [h1, h2]]
  rw [hcnt]

theorem binaryMul_eq_polyMul (n : Nat) (a b : BinaryPoly) (hdeg : a.degree_bound = n)
    (hla : a.coeffs.length = n) (hlb : b.coeffs.length = n) :
    BinaryPoly.mul a b = ⟨n, polyMul n a.coeffs b.coeffs⟩ := by
  unfold BinaryPoly.mul polyMul
  rw [hdeg, hla, hlb]

/-! ### The claims -/

/-- C5: ciphertext `add` produces noise estimate `noise1 + noise2` and
`multiply` produces `noise1 * noise2 + sigma`, exactly the heuristic model. -/
theorem claim_C5 (n : Nat) (sigma : ℚ) (ct1 ct2 : SimpleBinaryCKKSCiphertext)
    (keys : SimpleBinaryCKKSKeys) :
    (SimpleBinaryCKKS.add n ct1 ct2).noise_estimate
        = ct1.noise_estimate + ct2.noise_estimate ∧
    (SimpleBinaryCKKS.multiply n sigma ct1 ct2 keys).noise_estimate
        = ct1.noise_estimate * ct2.noise_estimate + sigma :=
  ⟨rfl, rfl⟩

/-- C6: for every permutation of the index positions and every `h ≤ n`, the
Hamming-weight sampler returns a length-`n` vector with exactly `h` ones and
`n - h` zeros. -/
theorem claim_C6 (n h : Nat) (positions : List Nat)
    (hperm : positions.Perm (List.range n)) (hh : h ≤ n) :
    (SimpleHWT.sampleHWT n h positions).length = n ∧
    (SimpleHWT.sampleHWT n h positions).count 1 = h ∧
    (SimpleHWT.sampleHWT n h positions).count 0 = n - h :=
  sampleHWT_counts n h positions hperm hh

/-- Witness for C6 at `n = 3`, `h = 2`, shuffled positions `[2, 0, 1]`. -/
theorem claim_C6_witness :
    (SimpleHWT.sampleHWT 3 2 [2, 0, 1]).length = 3 ∧
    (SimpleHWT.sampleHWT 3 2 [2, 0, 1]).count 1 = 2 ∧
    (SimpleHWT.sampleHWT 3 2 [2, 0, 1]).count 0 = 3 - 2 :=
  claim_C6 3 2 [2, 0, 1] (by decide) (by decide)

/-- C7: `SimpleBinaryCKKS` reduces Gaussian samples by `abs(c) % 2`, which is
always a bit; but `BinaryCKKS::keyGen`/`encrypt` reduce by plain `c % 2`
(C++ truncated remainder), so the sample `-1` yields the error coefficient
`-1`, which is not in `{0, 1}` — contradicting the claim and the code's own
"reduce to binary" intent. -/
theorem claim_C7 :
    (∀ c : Int, isBit (SimpleBinaryCKKS.reduceErrCoeff c)) ∧
    BinaryCKKS.reduceErrCoeff (-1) = -1 ∧
    ¬ isBit (BinaryCKKS.reduceErrCoeff (-1)) ∧
    BinaryCKKS.encryptErrPoly 1 [-1] = ⟨1, [-1]⟩ :=
  ⟨isBit_reduceErr, by decide, by decide, by decide⟩

/-- Counterexample to C8 as stated: `BinaryPoly::operator+` on operands of
dimensions 1 and 2 does not fail; it returns a dimension-2 result. -/
theorem claim_C8_counterexample :
    BinaryPoly.add ⟨1, [1]⟩ ⟨2, [0, 1]⟩ = ⟨2, [1, 1]⟩ := by decide

/-- C8 (amended): `SimpleBinaryPoly::operator+` fails (assertion) exactly when
the ring dimensions differ, but `BinaryPoly::operator+` never fails — it
returns a zero-padded result of dimension `max(n1, n2)`. -/
theorem claim_C8 (a b : SimpleBinaryPoly) (c d : BinaryPoly) :
    (SimpleBinaryPoly.add a b = none ↔ a.n ≠ b.n) ∧
    (BinaryPoly.add c d).degree_bound = max c.degree_bound d.degree_bound ∧
    (BinaryPoly.add c d).coeffs.length = max c.degree_bound d.degree_bound := by
  refine ⟨?_, rfl, by simp [BinaryPoly.add]⟩
  by_cases h : a.n = b.n <;> simp [SimpleBinaryPoly.add, h]

/-- C10: out-of-range coefficient access is total: `getCoeff` returns 0 and
`setCoeff` leaves the element unchanged for every index outside `[0, n)`
(including negative indices). -/
theorem claim_C10 (p : SimpleBinaryPoly) (i v : Int) (h : i < 0 ∨ (p.n : Int) ≤ i) :
    p.getCoeff i = 0 ∧ p.setCoeff i v = p := by
  have hcond : ¬(0 ≤ i ∧ i < (p.n : Int)) := by
    rcases h with h | h <;> omega
  unfold SimpleBinaryPoly.getCoeff SimpleBinaryPoly.setCoeff
  rw [if_neg hcond, if_neg hcond]
  exact ⟨rfl, rfl⟩

/-- Witness for C10 at the negative index `-1`. -/
theorem claim_C10_witness :
    SimpleBinaryPoly.getCoeff ⟨2, [1, 0]⟩ (-1) = 0 ∧
    SimpleBinaryPoly.setCoeff ⟨2, [1, 0]⟩ (-1) 5 = ⟨2, [1, 0]⟩ :=
  claim_C10 ⟨2, [1, 0]⟩ (-1) 5 (Or.inl (by decide))

/-- C2: for ring elements of the same dimension `n` with coefficients in
`{0, 1}`, both `SimpleBinaryPoly::operator*` and `BinaryPoly::operator*`
compute the cyclic convolution mod `x^n + 1`: coefficient `k` of the product
is the XOR over all pairs `(i, j)` with `(i + j) mod n = k` of
`a[i] AND b[j]`. -/
theorem claim_C2 (n : Nat) (a b : List Int) (ha : bitVec a) (hb : bitVec b)
    (hla : a.length = n) (hlb : b.length = n) (k : Nat) (hk : k < n) :
    (polyMul n a b).getD k 0 = (if xorConvSpec n a b k then 1 else 0) ∧
    (BinaryPoly.mul ⟨n, a⟩ ⟨n, b⟩).coeffs.getD k 0
      = (if xorConvSpec n a b k then 1 else 0) := by
  have h1 : (polyMul n a b).getD k 0 = (if xorConvSpec n a b k then 1 else 0) := by
    have hmod := polyMul_getD n a b hk
    have hspec := xorConvSpec_eq_countP n ha hb k
    rcases Nat.mod_two_eq_zero_or_one ((pairList n).countP (mulQual n a b k)) with h | h
    · have hs : xorConvSpec n a b k = false := by
        rw [hspec, h]
        rfl
      rw [hmod, hs, if_neg (by decide : ¬(false = true))]
      omega
    · have hs : xorConvSpec n a b k = true := by
        rw [hspec, h]
        rfl
      rw [hmod, hs, if_pos rfl]
      omega
  refine ⟨h1, ?_⟩
  rw [binaryMul_eq_polyMul n ⟨n, a⟩ ⟨n, b⟩ rfl hla hlb]
  exact h1

/-- Witness for C2 at `n = 2`, `a = [1, 1]`, `b = [0, 1]`, `k = 1`. -/
theorem claim_C2_witness :
    (polyMul 2 [1, 1] [0, 1]).getD 1 0 = (if xorConvSpec 2 [1, 1] [0, 1] 1 then 1 else 0) ∧
    (BinaryPoly.mul ⟨2, [1, 1]⟩ ⟨2, [0, 1]⟩).coeffs.getD 1 0
      = (if xorConvSpec 2 [1, 1] [0, 1] 1 then 1 else 0) :=
  claim_C2 2 [1, 1] [0, 1] (by decide) (by decide) (by decide) (by decide) 1 (by decide)

/-- Counterexample to C3 as stated: with `security = 6`, `ring_dim = 2` the
engine constructor sets `h = 3 > n = 2`, yet `keyGen` succeeds and returns a
bundle (secret key `[1, 1]`); no `InvalidParameter` failure exists anywhere
in the code. -/
theorem claim_C3_counterexample :
    (SimpleBinaryCKKS.keyGen 2 (SimpleBinaryCKKS.hParam 6) [0, 1] [0, 0] [0, 0] [0, 0]
      [0, 0]).s = [1, 1] := by decide

/-- C3 (amended): `keyGen` performs no parameter validation at all: for every
ring dimension `n`, every Hamming weight `h` (including `h > n`), and every
sampler outcome it succeeds, returning a complete bundle whose five
components all have length `n`. It never fails with `InvalidParameter`. -/
theorem claim_C3 (n h : Nat) (s_rand : List Nat) (a_rand e_rand a0_rand e0_rand : List Int) :
    (SimpleBinaryCKKS.keyGen n h s_rand a_rand e_rand a0_rand e0_rand).s.length = n ∧
    (SimpleBinaryCKKS.keyGen n h s_rand a_rand e_rand a0_rand e0_rand).pk_a.length = n ∧
    (SimpleBinaryCKKS.keyGen n h s_rand a_rand e_rand a0_rand e0_rand).pk_b.length = n ∧
    (SimpleBinaryCKKS.keyGen n h s_rand a_rand e_rand a0_rand e0_rand).evk_a.length = n ∧
    (SimpleBinaryCKKS.keyGen n h s_rand a_rand e_rand a0_rand e0_rand).evk_b.length = n :=
  keyGen_lengths n h s_rand a_rand e_rand a0_rand e0_rand

/-- C9: ring algebra over a common dimension `n` for bit vectors: addition is
commutative and associative, every element is its own additive inverse
(`a + a = 0`), and multiplication distributes over addition. -/
theorem claim_C9 (n : Nat) (a b c : List Int)
    (ha : bitVec a) (hb : bitVec b) (hc : bitVec c)
    (hla : a.length = n) (hlb : b.length = n) (hlc : c.length = n) :
    polyAdd n a b = polyAdd n b a ∧
    polyAdd n (polyAdd n a b) c = polyAdd n a (polyAdd n b c) ∧
    polyAdd n a a = List.replicate n 0 ∧
    polyMul n a (polyAdd n b c) = polyAdd n (polyMul n a b) (polyMul n a c) := by
  refine ⟨?_, ?_, ?_, ?_⟩
  · apply ext_getD (by rw [polyAdd_length, polyAdd_length])
    intro k hk
    have hkn : k < n := by rwa [polyAdd_length] at hk
    rw [polyAdd_getD n a b hkn, polyAdd_getD n b a hkn, Int.add_comm]
  · apply ext_getD (by rw [polyAdd_length, polyAdd_length])
    intro k hk
    have hkn : k < n := by rwa [polyAdd_length] at hk
    rw [polyAdd_getD n _ c hkn, polyAdd_getD n a b hkn,
      polyAdd_getD n a _ hkn, polyAdd_getD n b c hkn]
    rcases bitVec_getD ha k with h1 | h1 <;> rcases bitVec_getD hb k with h2 | h2 <;>
      rcases bitVec_getD hc k with h3 | h3 <;> rw [h1, h2, h3] <;> decide
  · apply ext_getD (by rw [polyAdd_length]; simp)
    intro k hk
    have hkn : k < n := by rwa [polyAdd_length] at hk
    rw [polyAdd_getD n a a hkn, getD_replicate hkn]
    rcases bitVec_getD ha k with h1 | h1 <;> rw [h1] <;> decide
  · have hbc : bitVec (polyAdd n b c) := bitVec_polyAdd n hb hc
    apply ringMap_inj (polyMul_length n a _)
      (by rw [polyAdd_length]) (bitVec_polyMul n a _)
      (bitVec_polyAdd n (bitVec_polyMul n a b) (bitVec_polyMul n a c))
    rw [ringMap_polyMul n ha hbc, ringMap_polyAdd, ringMap_polyAdd,
      ringMap_polyMul n ha hb, ringMap_polyMul n ha hc, mul_add]

/-- Witness for C9 at `n = 2`, `a = [1, 0]`, `b = [1, 1]`, `c = [0, 1]`. -/
theorem claim_C9_witness :
    polyAdd 2 [1, 0] [1, 1] = polyAdd 2 [1, 1] [1, 0] ∧
    polyAdd 2 (polyAdd 2 [1, 0] [1, 1]) [0, 1] = polyAdd 2 [1, 0] (polyAdd 2 [1, 1] [0, 1]) ∧
    polyAdd 2 [1, 0] [1, 0] = List.replicate 2 0 ∧
    polyMul 2 [1, 0] (polyAdd 2 [1, 1] [0, 1])
      = polyAdd 2 (polyMul 2 [1, 0] [1, 1]) (polyMul 2 [1, 0] [0, 1]) :=
  claim_C9 2 [1, 0] [1, 1] [0, 1] (by decide) (by decide) (by decide)
    (by decide) (by decide) (by decide)

/-- Counterexample to C1 as stated: at `n = 1`, `h = 0`, with the keyGen
Gaussian draw `e = [1]` (reduced to the error polynomial `1`) and the encrypt
Gaussian draw `e0 = [1]`, encrypting the message `[0]` and decrypting returns
`[1]`, not `[0]`: the error terms do not cancel, so correctness fails for
this outcome of the samplers' randomness. -/
theorem claim_C1_counterexample :
    SimpleBinaryCKKS.decode 1
      (SimpleBinaryCKKS.decrypt 1
        (SimpleBinaryCKKS.encrypt 1 SimpleBinaryCKKS.sigmaParam
          (SimpleBinaryCKKS.encode 1 [0])
          (SimpleBinaryCKKS.keyGen 1 0 [0] [0] [1] [0] [0]) [0] [1] [0])
        (SimpleBinaryCKKS.keyGen 1 0 [0] [0] [1] [0] [0]))
      1 ≠ [0] := by decide

/-- C1 (amended): decoding the decryption of the encryption of the encoding
of a bit vector `m` of length at most `n` returns `m` exactly whenever the
three discrete-Gaussian error draws involved (keyGen's public-key error and
encrypt's two errors) all reduce to zero; it is not true for every outcome of
the samplers' randomness. -/
theorem claim_C1 (n h : Nat) (sigma : ℚ) (s_rand : List Nat)
    (a_rand e_rand a0_rand e0k_rand m v_rand e0_rand e1_rand : List Int)
    (ha : bitVec a_rand) (hv : bitVec v_rand) (hm : bitVec m) (hmlen : m.length ≤ n)
    (he : ∀ x ∈ e_rand, SimpleBinaryCKKS.reduceErrCoeff x = 0)
    (he0 : ∀ x ∈ e0_rand, SimpleBinaryCKKS.reduceErrCoeff x = 0)
    (he1 : ∀ x ∈ e1_rand, SimpleBinaryCKKS.reduceErrCoeff x = 0) :
    SimpleBinaryCKKS.decode n
      (SimpleBinaryCKKS.decrypt n
        (SimpleBinaryCKKS.encrypt n sigma (SimpleBinaryCKKS.encode n m)
          (SimpleBinaryCKKS.keyGen n h s_rand a_rand e_rand a0_rand e0k_rand)
          v_rand e0_rand e1_rand)
        (SimpleBinaryCKKS.keyGen n h s_rand a_rand e_rand a0_rand e0k_rand))
      m.length = m := by
  rw [decrypt_encrypt_eq_encode n h sigma s_rand a_rand e_rand a0_rand e0k_rand m
    v_rand e0_rand e1_rand ha hv hm he he0 he1]
  apply ext_getD
  · rw [decode_length]
  · intro k hk
    have hkm : k < m.length := by rwa [decode_length] at hk
    rw [decode_getD n _ m.length hkm, if_pos (by omega : k < n),
      encode_getD n m (by omega : k < n), if_pos (by omega : k < min m.length n)]
    exact isBit_tmod_two_of_bit (bitVec_getD hm k)

/-- Witness for C1 (amended) at `n = 2`, `h = 1`, message `[1, 0]`, with all
Gaussian draws even (reducing to zero). -/
theorem claim_C1_witness :
    SimpleBinaryCKKS.decode 2
      (SimpleBinaryCKKS.decrypt 2
        (SimpleBinaryCKKS.encrypt 2 SimpleBinaryCKKS.sigmaParam
          (SimpleBinaryCKKS.encode 2 [1, 0])
          (SimpleBinaryCKKS.keyGen 2 1 [1, 0] [1, 0] [0, 2] [0, 0] [0])
          [1, 1] [2, 0] [])
        (SimpleBinaryCKKS.keyGen 2 1 [1, 0] [1, 0] [0, 2] [0, 0] [0]))
      (List.length [1, 0]) = [1, 0] :=
  claim_C1 2 1 SimpleBinaryCKKS.sigmaParam [1, 0] [1, 0] [0, 2] [0, 0] [0] [1, 0]
    [1, 1] [2, 0] [] (by decide) (by decide) (by decide) (by decide)
    (by decide) (by decide) (by decide)

/-- Counterexample to C4 as stated: constructing a `SimpleBinaryPoly` from
the coefficient vector `[2]` keeps the raw value `2`, which is not in
`{0, 1}` — the constructor performs no mod-2 reduction. -/
theorem claim_C4_counterexample :
    ¬ bitVec (SimpleBinaryPoly.ofCoeffs [2] 1).coeffs := by decide

/-- A well-formed ring element of dimension `n`: exactly `n` coefficients,
each in `{0, 1}`. -/
def goodPoly (n : Nat) (cs : List Int) : Prop := cs.length = n ∧ bitVec cs

/-- C4 (amended): the length-`n` part of the invariant holds unconditionally,
and the `{0, 1}` part holds for every operation provided constructor inputs
are bits, `setCoeff` values are nonnegative and message data is nonnegative
(the raw constructor and `setCoeff`/`encode` with negative arguments can
violate it, as the counterexample shows). -/
theorem claim_C4 (ring_dim : Nat) (cs : List Int) (p q r : SimpleBinaryPoly) (i v : Int)
    (n h : Nat) (s_rand : List Nat) (a_rand e_rand a0_rand e0_rand : List Int)
    (sigma : ℚ) (pt data : List Int) (keys kk : SimpleBinaryCKKSKeys)
    (v_rand enc0_rand enc1_rand : List Int) (ct1 ct2 : SimpleBinaryCKKSCiphertext)
    (hcs : bitVec cs) (hpb : bitVec p.coeffs) (hplen : p.coeffs.length = p.n) (hv : 0 ≤ v)
    (hqr : q.n = r.n) (hqb : bitVec q.coeffs) (hrb : bitVec r.coeffs)
    (ha : bitVec a_rand) (ha0 : bitVec a0_rand)
    (hpt : bitVec pt) (hdata : ∀ x ∈ data, 0 ≤ x)
    (hc10 : bitVec ct1.c0) (hc11 : bitVec ct1.c1)
    (hc20 : bitVec ct2.c0) (hc21 : bitVec ct2.c1) :
    ((SimpleBinaryPoly.ofCoeffs cs ring_dim).n = ring_dim ∧
      goodPoly ring_dim (SimpleBinaryPoly.ofCoeffs cs ring_dim).coeffs) ∧
    ((p.setCoeff i v).n = p.n ∧ goodPoly p.n (p.setCoeff i v).coeffs) ∧
    (q.add r = some ⟨q.n, polyAdd q.n q.coeffs r.coeffs⟩ ∧
      goodPoly q.n (polyAdd q.n q.coeffs r.coeffs)) ∧
    (q.mul r = some ⟨q.n, polyMul q.n q.coeffs r.coeffs⟩ ∧
      goodPoly q.n (polyMul q.n q.coeffs r.coeffs)) ∧
    goodPoly n (SimpleBinaryCKKS.keyGen n h s_rand a_rand e_rand a0_rand e0_rand).s ∧
    goodPoly n (SimpleBinaryCKKS.keyGen n h s_rand a_rand e_rand a0_rand e0_rand).pk_a ∧
    goodPoly n (SimpleBinaryCKKS.keyGen n h s_rand a_rand e_rand a0_rand e0_rand).pk_b ∧
    goodPoly n (SimpleBinaryCKKS.keyGen n h s_rand a_rand e_rand a0_rand e0_rand).evk_a ∧
    goodPoly n (SimpleBinaryCKKS.keyGen n h s_rand a_rand e_rand a0_rand e0_rand).evk_b ∧
    goodPoly n (SimpleBinaryCKKS.encode n data) ∧
    goodPoly n (SimpleBinaryCKKS.encrypt n sigma pt keys v_rand enc0_rand enc1_rand).c0 ∧
    goodPoly n (SimpleBinaryCKKS.encrypt n sigma pt keys v_rand enc0_rand enc1_rand).c1 ∧
    goodPoly n (SimpleBinaryCKKS.decrypt n ct1 kk) ∧
    goodPoly n (SimpleBinaryCKKS.add n ct1 ct2).c0 ∧
    goodPoly n (SimpleBinaryCKKS.add n ct1 ct2).c1 ∧
    goodPoly n (SimpleBinaryCKKS.multiply n sigma ct1 ct2 kk).c0 ∧
    goodPoly n (SimpleBinaryCKKS.multiply n sigma ct1 ct2 kk).c1 := by
  have hkl := keyGen_lengths n h s_rand a_rand e_rand a0_rand e0_rand
  have hkb := keyGen_bitVec n h s_rand a_rand e_rand a0_rand e0_rand ha ha0
  refine ⟨⟨rfl, resizeTo_length cs ring_dim, bitVec_resizeTo hcs ring_dim⟩, ?_,
    ⟨by rw [SimpleBinaryPoly.add, if_pos hqr], polyAdd_length q.n _ _,
      bitVec_polyAdd q.n hqb hrb⟩,
    ⟨by rw [SimpleBinaryPoly.mul, if_pos hqr], polyMul_length q.n _ _,
      bitVec_polyMul q.n _ _⟩,
    ⟨hkl.1, hkb.1⟩, ⟨hkl.2.1, hkb.2.1⟩, ⟨hkl.2.2.1, hkb.2.2.1⟩,
    ⟨hkl.2.2.2.1, hkb.2.2.2.1⟩, ⟨hkl.2.2.2.2, hkb.2.2.2.2⟩,
    ⟨encode_length n data, bitVec_encode n data hdata⟩,
    ⟨polyAdd_length n _ _, ?_⟩, ⟨polyAdd_length n _ _, ?_⟩,
    ⟨polyAdd_length n _ _, bitVec_polyAdd n hc10 (bitVec_polyMul n _ _)⟩,
    ⟨polyAdd_length n _ _, bitVec_polyAdd n hc10 hc20⟩,
    ⟨polyAdd_length n _ _, bitVec_polyAdd n hc11 hc21⟩,
    ⟨polyAdd_length n _ _, bitVec_polyAdd n (bitVec_polyMul n _ _) (bitVec_polyMul n _ _)⟩,
    ⟨polyAdd_length n _ _,
      bitVec_polyAdd n (bitVec_polyAdd n (bitVec_polyMul n _ _) (bitVec_polyMul n _ _))
        (bitVec_polyMul n _ _)⟩⟩
  · unfold SimpleBinaryPoly.setCoeff
    by_cases hcnd : 0 ≤ i ∧ i < (p.n : Int)
    · rw [if_pos hcnd]
      exact ⟨rfl, by simpa using hplen,
        bitVec_set hpb (isBit_tmod_two_of_nonneg v hv) i.toNat⟩
    · rw [if_neg hcnd]
      exact ⟨rfl, hplen, hpb⟩
  · rw [encrypt_c0]
    exact bitVec_polyAdd n (bitVec_polyAdd n (bitVec_polyMul n _ _) hpt)
      (bitVec_resizeTo (bitVec_mapReduceErr enc0_rand) n)
  · rw [encrypt_c1]
    exact bitVec_polyAdd n (bitVec_polyMul n _ _)
      (bitVec_resizeTo (bitVec_mapReduceErr enc1_rand) n)

/-- Witness for C4 (amended) at dimension-1 inputs. -/
theorem claim_C4_witness :
    ((SimpleBinaryPoly.ofCoeffs [1] 1).n = 1 ∧
      goodPoly 1 (SimpleBinaryPoly.ofCoeffs [1] 1).coeffs) ∧
    ((SimpleBinaryPoly.setCoeff ⟨1, [0]⟩ 0 1).n = (⟨1, [0]⟩ : SimpleBinaryPoly).n ∧
      goodPoly (⟨1, [0]⟩ : SimpleBinaryPoly).n
        (SimpleBinaryPoly.setCoeff ⟨1, [0]⟩ 0 1).coeffs) ∧
    (SimpleBinaryPoly.add ⟨1, [1]⟩ ⟨1, [0]⟩
        = some ⟨(⟨1, [1]⟩ : SimpleBinaryPoly).n,
            polyAdd (⟨1, [1]⟩ : SimpleBinaryPoly).n [1] [0]⟩ ∧
      goodPoly (⟨1, [1]⟩ : SimpleBinaryPoly).n
        (polyAdd (⟨1, [1]⟩ : SimpleBinaryPoly).n [1] [0])) ∧
    (SimpleBinaryPoly.mul ⟨1, [1]⟩ ⟨1, [0]⟩
        = some ⟨(⟨1, [1]⟩ : SimpleBinaryPoly).n,
            polyMul (⟨1, [1]⟩ : SimpleBinaryPoly).n [1] [0]⟩ ∧
      goodPoly (⟨1, [1]⟩ : SimpleBinaryPoly).n
        (polyMul (⟨1, [1]⟩ : SimpleBinaryPoly).n [1] [0])) ∧
    goodPoly 1 (SimpleBinaryCKKS.keyGen 1 1 [0] [1] [1] [0] [0]).s ∧
    goodPoly 1 (SimpleBinaryCKKS.keyGen 1 1 [0] [1] [1] [0] [0]).pk_a ∧
    goodPoly 1 (SimpleBinaryCKKS.keyGen 1 1 [0] [1] [1] [0] [0]).pk_b ∧
    goodPoly 1 (SimpleBinaryCKKS.keyGen 1 1 [0] [1] [1] [0] [0]).evk_a ∧
    goodPoly 1 (SimpleBinaryCKKS.keyGen 1 1 [0] [1] [1] [0] [0]).evk_b ∧
    goodPoly 1 (SimpleBinaryCKKS.encode 1 [1]) ∧
    goodPoly 1 (SimpleBinaryCKKS.encrypt 1 0 [1] ⟨[1], [1], [0], [1], [0]⟩ [1] [1] [0]).c0 ∧
    goodPoly 1 (SimpleBinaryCKKS.encrypt 1 0 [1] ⟨[1], [1], [0], [1], [0]⟩ [1] [1] [0]).c1 ∧
    goodPoly 1 (SimpleBinaryCKKS.decrypt 1 ⟨[1], [0], 0⟩ ⟨[1], [0], [1], [0], [1]⟩) ∧
    goodPoly 1 (SimpleBinaryCKKS.add 1 ⟨[1], [0], 0⟩ ⟨[0], [1], 0⟩).c0 ∧
    goodPoly 1 (SimpleBinaryCKKS.add 1 ⟨[1], [0], 0⟩ ⟨[0], [1], 0⟩).c1 ∧
    goodPoly 1 (SimpleBinaryCKKS.multiply 1 0 ⟨[1], [0], 0⟩ ⟨[0], [1], 0⟩
      ⟨[1], [0], [1], [0], [1]⟩).c0 ∧
    goodPoly 1 (SimpleBinaryCKKS.multiply 1 0 ⟨[1], [0], 0⟩ ⟨[0], [1], 0⟩
      ⟨[1], [0], [1], [0], [1]⟩).c1 :=
  claim_C4 1 [1] ⟨1, [0]⟩ ⟨1, [1]⟩ ⟨1, [0]⟩ 0 1 1 1 [0] [1] [1] [0] [0] 0 [1] [1]
    ⟨[1], [1], [0], [1], [0]⟩ ⟨[1], [0], [1], [0], [1]⟩ [1] [1] [0]
    ⟨[1], [0], 0⟩ ⟨[0], [1], 0⟩
    (by decide) (by decide) (by decide) (by decide) (by decide) (by decide) (by decide)
    (by decide) (by decide) (by decide) (by decide) (by decide) (by decide)
    (by decide) (by decide)
